import Mathlib

/-!
Verification of the Shibu command-resolution pipeline (`src/shibu_main.py`).

The Python code is shallowly embedded: file names and utterances are Lean
`String`s, the registry directory is a `List String` of entry names in
enumeration (snapshot) order, JSON responses of the two remote collaborators
are an inductive `Json` value, and fallible remote calls are `Except` values.
`glob.glob(dir, "*pat*")` is modelled by a faithful `fnmatch`-style matcher
(POSIX semantics: case-sensitive, hidden files skipped for patterns that do
not start with a dot); patterns containing a path separator are outside the
model, mirroring the fact that utterances are single lines of recognized
speech.
-/

namespace Shibu

/-- Python `str.strip` whitespace set: space, tab, newline, carriage return,
vertical tab and form feed. -/
def isPyWs (c : Char) : Bool :=
  c = ' ' || c = '\t' || c = '\n' || c = '\r' || c = '\x0b' || c = '\x0c'

/-- ASCII lower-casing of one character, the behaviour of Python `str.lower`
on ASCII text (the only text the pipeline handles). -/
def lowerChar (c : Char) : Char :=
  if 'A' ≤ c ∧ c ≤ 'Z' then Char.ofNat (c.toNat + 32) else c

/-- Embedding of Python `str.lower` for ASCII text. -/
def asciiLower (s : String) : String :=
  String.mk (s.data.map lowerChar)

/-- Drop characters satisfying `p` from both ends of a character list. -/
def stripEndsP (p : Char → Bool) (l : List Char) : List Char :=
  ((l.dropWhile p).reverse.dropWhile p).reverse

/-- Embedding of Python `str.strip()` (no argument: strips whitespace). -/
def pyStrip (s : String) : String :=
  String.mk (stripEndsP isPyWs s.data)

/-- Embedding of Python `str.strip(c)` for a single-character argument. -/
def pyStripChar (c : Char) (s : String) : String :=
  String.mk (stripEndsP (fun d => decide (d = c)) s.data)

/-- Replace every occurrence of character `a` by `b`; the behaviour of
Python `str.replace(a, b)` for one-character arguments. -/
def replaceList (a b : Char) (l : List Char) : List Char :=
  l.map (fun c => if c = a then b else c)

/-- String wrapper of `replaceList`. -/
def replaceChar (a b : Char) (s : String) : String :=
  String.mk (replaceList a b s.data)

/-- Prefix test: `listStartsWith w s` holds when `w` is a prefix of `s`
(Python `s.startswith(w)` at character-list level). -/
def listStartsWith : List Char → List Char → Bool
  | [], _ => true
  | _ :: _, [] => false
  | a :: w, b :: s => decide (a = b) && listStartsWith w s

/-- Substring test: `listSubstr w s` holds when `w` occurs contiguously inside
`s` (Python `w in s` for strings). -/
def listSubstr (w s : List Char) : Bool :=
  (s.tails).any (listStartsWith w)

/-- Python `w in s` on strings. -/
def pyIn (w s : String) : Bool :=
  listSubstr w.data s.data

/-- Split a character list at every character satisfying `p`, keeping empty
pieces (the behaviour of Python `str.split(sep)` with an explicit
separator). -/
def splitP (p : Char → Bool) : List Char → List (List Char)
  | [] => [[]]
  | c :: t =>
    if p c then [] :: splitP p t
    else
      match splitP p t with
      | [] => [[c]]
      | h :: r => (c :: h) :: r

/-- Embedding of Python `str.split()` with no argument: split on whitespace
runs, dropping empty pieces. -/
def pySplit (l : List Char) : List (List Char) :=
  (splitP isPyWs l).filter (fun w => !w.isEmpty)

/-- A directory entry is hidden from `glob` when its name starts with a
dot. -/
def strHidden (n : String) : Bool :=
  match n.data with
  | '.' :: _ => true
  | _ => false

/-! ### fnmatch-style glob matching

The call `glob.glob(os.path.join(dir, pat))` for a pattern without path separators
enumerates the directory and keeps the non-hidden names fully matched by
`pat` under `fnmatch` rules: `*` matches any run, `?` any single character,
`[...]` a character class (leading `!` negates; a `]` right after `[` or
`[!` is literal; an unterminated `[` is a literal `[`). POSIX `normcase` is
the identity, so matching is case-sensitive. -/

/-- Split a character-class body at its closing `]`, mirroring the scan in
Python `fnmatch.translate`: an optional leading `!` and an immediately
following `]` are part of the body. Returns `(body, rest)` or `none` when
the class is unterminated. -/
def scanCloseAux : List Char → Option (List Char × List Char)
  | [] => none
  | c :: r =>
    if c = ']' then some ([], r)
    else (scanCloseAux r).map (fun ab => (c :: ab.1, ab.2))

/-- Scan for the closing `]` of a character class, starting just after the
opening `[`, with the `fnmatch.translate` offset rules. -/
def scanClose (p : List Char) : Option (List Char × List Char) :=
  match p with
  | [] => none
  | c :: q =>
    if c = '!' then
      match q with
      | [] => none
      | d :: r2 =>
        if d = ']' then (scanCloseAux r2).map (fun ab => ('!' :: ']' :: ab.1, ab.2))
        else (scanCloseAux q).map (fun ab => ('!' :: ab.1, ab.2))
    else if c = ']' then (scanCloseAux q).map (fun ab => (']' :: ab.1, ab.2))
    else scanCloseAux p

/-- Membership of a character in a class body without the negation marker:
`a-b` ranges (empty when reversed, as in `fnmatch.translate`), other
characters literal, a trailing `-` literal. -/
def classMatch : List Char → Char → Bool
  | [], _ => false
  | a :: '-' :: b :: rest, c =>
    (if a ≤ b then decide (a ≤ c) && decide (c ≤ b) else false) || classMatch rest c
  | a :: rest, c => decide (a = c) || classMatch rest c

/-- Membership of a character in a full class body, handling the leading
negation marker `!`. -/
def charInClass (body : List Char) (c : Char) : Bool :=
  match body with
  | '!' :: rest => !(classMatch rest c)
  | _ => classMatch body c

/-- Compiled glob-pattern tokens, the analogue of the regex produced by
`fnmatch.translate`. -/
inductive GTok where
  | star : GTok
  | anyOne : GTok
  | lit : Char → GTok
  | cls : List Char → GTok
deriving DecidableEq, Repr

/-- Fuel-indexed pattern compiler; the fuel only bounds the recursion (one
unit per emitted token, each token consuming at least one pattern
character), keeping the definition structurally recursive and hence
kernel-computable. -/
def compileGlobF : Nat → List Char → List GTok
  | 0, _ => []
  | _, [] => []
  | fuel + 1, c :: p =>
    if c = '*' then GTok.star :: compileGlobF fuel p
    else if c = '?' then GTok.anyOne :: compileGlobF fuel p
    else if c = '[' then
      match scanClose p with
      | none => GTok.lit '[' :: compileGlobF fuel p
      | some x => GTok.cls x.1 :: compileGlobF fuel x.2
    else GTok.lit c :: compileGlobF fuel p

/-- Compile a glob pattern to tokens, mirroring `fnmatch.translate`. -/
def compileGlob (p : List Char) : List GTok :=
  compileGlobF p.length p

/-- Anchored matching of a compiled pattern against a name, the semantics of
the regex `fnmatch.translate` produces: `star` consumes any (possibly
empty) run, so the remainder of the pattern is tried on every tail. -/
def gmatch : List GTok → List Char → Bool
  | [], s => s.isEmpty
  | GTok.star :: p, s => (s.tails).any (fun t => gmatch p t)
  | GTok.anyOne :: p, s =>
    match s with
    | [] => false
    | _ :: t => gmatch p t
  | GTok.cls body :: p, s =>
    match s with
    | [] => false
    | c :: t => charInClass body c && gmatch p t
  | GTok.lit a :: p, s =>
    match s with
    | [] => false
    | c :: t => decide (a = c) && gmatch p t

/-- Full-name glob match of a pattern string against a name string. -/
def globMatch (pat n : String) : Bool :=
  gmatch (compileGlob pat.data) n.data

/-! ### A model of Python/JSON values

Both remote collaborators hand the pipeline decoded JSON (`response.json()`
for Gemini, the `llama_cpp` response dict for the local model). The code
navigates these values duck-typed, so the embedding keeps the full value
space: `null`, booleans, integers, strings, arrays and objects. Arrays and
objects carry their own list types (`JArr`, `JObj`) so that every function
below is structurally recursive and kernel-computable. Object lookup takes
the last binding of a duplicated key, as `json.loads` and Python dict
literals do. -/

mutual
inductive Json where
  | null : Json
  | bool : Bool → Json
  | num : Int → Json
  | str : String → Json
  | arr : JArr → Json
  | obj : JObj → Json
inductive JArr where
  | nil : JArr
  | cons : Json → JArr → JArr
inductive JObj where
  | nil : JObj
  | cons : String → Json → JObj → JObj
end

/-- Build a JSON array value from a Lean list (readability helper for
concrete response values). -/
def toJArr : List Json → JArr
  | [] => JArr.nil
  | v :: vs => JArr.cons v (toJArr vs)

/-- Build a JSON object value from a Lean association list. -/
def toJObj : List (String × Json) → JObj
  | [] => JObj.nil
  | kv :: kvs => JObj.cons kv.1 kv.2 (toJObj kvs)

/-- JSON array literal helper. -/
def jarr (xs : List Json) : Json :=
  Json.arr (toJArr xs)

/-- JSON object literal helper. -/
def jobj (fs : List (String × Json)) : Json :=
  Json.obj (toJObj fs)

/-- Emptiness of a JSON array. -/
def JArr.isEmpty : JArr → Bool
  | JArr.nil => true
  | JArr.cons _ _ => false

/-- Emptiness of a JSON object. -/
def JObj.isEmpty : JObj → Bool
  | JObj.nil => true
  | JObj.cons _ _ _ => false

/-- Last-binding-wins lookup in an object's field list. -/
def objFind (fs : JObj) (k : String) : Option Json :=
  match fs with
  | JObj.nil => none
  | JObj.cons k0 v0 rest =>
    match objFind rest k with
    | some v => some v
    | none => if k0 = k then some v0 else none

/-- Python `d.get(k, dflt)`; only ever applied to values already known to be
objects (`.get` on anything else raises, which callers model separately). -/
def objGet (o : Json) (k : String) (d : Json) : Json :=
  match o with
  | Json.obj fs => (objFind fs k).getD d
  | _ => d

/-- Python `d.get(k)` with its `None` default. -/
def objGetOpt (o : Json) (k : String) : Option Json :=
  match o with
  | Json.obj fs => objFind fs k
  | _ => none

/-- Python truthiness of a decoded JSON value. -/
def truthy : Json → Bool
  | Json.null => false
  | Json.bool b => b
  | Json.num n => decide (n ≠ 0)
  | Json.str s => decide (s ≠ "")
  | Json.arr xs => !xs.isEmpty
  | Json.obj fs => !fs.isEmpty

/-- Four lowercase hex digits, as `json.dumps` emits for `\uXXXX` escapes. -/
def hex4 (n : Nat) : List Char :=
  let dig := fun (k : Nat) => (Nat.digitChar (k % 16))
  [dig (n / 4096), dig (n / 256), dig (n / 16), dig n]

/-- Escape one character the way `json.dumps` (with its default
`ensure_ascii=True`) renders string contents. -/
def jsonEscChar (c : Char) : List Char :=
  if c = '"' then ['\\', '"']
  else if c = '\\' then ['\\', '\\']
  else if c = '\n' then ['\\', 'n']
  else if c = '\t' then ['\\', 't']
  else if c = '\r' then ['\\', 'r']
  else if c = '\x08' then ['\\', 'b']
  else if c = '\x0c' then ['\\', 'f']
  else if c.toNat < 32 then '\\' :: 'u' :: hex4 c.toNat
  else if c.toNat < 127 then [c]
  else if c.toNat < 65536 then '\\' :: 'u' :: hex4 c.toNat
  else
    '\\' :: 'u' :: hex4 (55296 + (c.toNat - 65536) / 1024) ++
      '\\' :: 'u' :: hex4 (56320 + (c.toNat - 65536) % 1024)

/-- String-content escaping of `json.dumps`. -/
def jsonEscape (s : String) : String :=
  String.mk (s.data.flatMap jsonEscChar)

mutual
/-- Embedding of `json.dumps(v)` with its default separators `", "` and
`": "` and default `ensure_ascii=True`. -/
def dumps : Json → String
  | Json.null => "null"
  | Json.bool b => if b then "true" else "false"
  | Json.num n => toString n
  | Json.str s => "\"" ++ jsonEscape s ++ "\""
  | Json.arr xs => "[" ++ dumpsA xs ++ "]"
  | Json.obj fs => "\x7b" ++ dumpsO fs ++ "\x7d"
/-- Comma-joined `json.dumps` rendering of array items. -/
def dumpsA : JArr → String
  | JArr.nil => ""
  | JArr.cons v JArr.nil => dumps v
  | JArr.cons v rest => dumps v ++ ", " ++ dumpsA rest
/-- Comma-joined `json.dumps` rendering of object fields. -/
def dumpsO : JObj → String
  | JObj.nil => ""
  | JObj.cons k v JObj.nil => "\"" ++ jsonEscape k ++ "\": " ++ dumps v
  | JObj.cons k v rest => "\"" ++ jsonEscape k ++ "\": " ++ dumps v ++ ", " ++ dumpsO rest
end

/-- Escape one character the way Python `repr` renders string contents for a
given quote character: the backslash, the quote, and the common control
characters get escapes, other non-printables become `\xXX`, everything else
is kept. -/
def reprEscChar (q c : Char) : List Char :=
  if c = '\\' then ['\\', '\\']
  else if c = q then ['\\', q]
  else if c = '\n' then ['\\', 'n']
  else if c = '\t' then ['\\', 't']
  else if c = '\r' then ['\\', 'r']
  else if c.toNat < 32 || c.toNat = 127 then
    ['\\', 'x', Nat.digitChar (c.toNat / 16), Nat.digitChar (c.toNat % 16)]
  else [c]

/-- Python `repr` of a string: single quotes unless the text contains a
single quote and no double quote. -/
def pyReprStr (s : String) : String :=
  let q : Char := if s.data.contains '\'' && !(s.data.contains '"') then '"' else '\''
  String.mk (q :: s.data.flatMap (reprEscChar q) ++ [q])

mutual
/-- Python `repr` of a decoded JSON value (the form `str` prints for
containers). -/
def pyRepr : Json → String
  | Json.null => "None"
  | Json.bool b => if b then "True" else "False"
  | Json.num n => toString n
  | Json.str s => pyReprStr s
  | Json.arr xs => "[" ++ pyReprA xs ++ "]"
  | Json.obj fs => "\x7b" ++ pyReprO fs ++ "\x7d"
/-- Comma-joined `repr` rendering of list items. -/
def pyReprA : JArr → String
  | JArr.nil => ""
  | JArr.cons v JArr.nil => pyRepr v
  | JArr.cons v rest => pyRepr v ++ ", " ++ pyReprA rest
/-- Comma-joined `repr` rendering of dict entries. -/
def pyReprO : JObj → String
  | JObj.nil => ""
  | JObj.cons k v JObj.nil => pyReprStr k ++ ": " ++ pyRepr v
  | JObj.cons k v rest => pyReprStr k ++ ": " ++ pyRepr v ++ ", " ++ pyReprO rest
end

/-- Embedding of Python `str(v)` on a decoded JSON value: a string is
returned verbatim, anything else via `repr`. -/
def pyStr (v : Json) : String :=
  match v with
  | Json.str s => s
  | _ => pyRepr v

/-! ### `ShibuCore.find_local_command` (Exact and Heuristic tiers)

The commands directory is modelled as the list of its entry names in
enumeration order (`files`), plus a flag for its existence; `glob` returns
matches in that same order and skips hidden names. The function returns the
matched entry's name (the code returns its full path). -/

/-- Registry snapshot as the code sees it: `glob.glob(commands_dir + "/*")`,
the non-hidden entries in enumeration order. -/
def snapshot (files : List String) : List String :=
  files.filter (fun n => !strHidden n)

/-- Search pattern built by `find_local_command`:
`command.strip().lower().replace(" ", "_")` (each space character,
individually, becomes an underscore). -/
def patternOf (cmd : String) : String :=
  replaceChar ' ' '_' (asciiLower (pyStrip cmd))

/-- Exact tier: `glob.glob(os.path.join(commands_dir, "*" + pattern + "*"))`
and take the first hit, in enumeration order. -/
def exactTier (files : List String) (cmd : String) : Option String :=
  (files.filter (fun n => !strHidden n && globMatch ("*" ++ patternOf cmd ++ "*") n)).head?

/-- Utterance tokens used by the heuristic tier and the token-overlap
fallback: `[w for w in command.lower().split() if len(w) > 2]`. -/
def cmdTokens (cmd : String) : List (List Char) :=
  (pySplit (asciiLower cmd).data).filter (fun w => 2 < w.length)

/-- Name tokenization of the heuristic tier:
`fname.replace(".", "_").split("_")` on the lower-cased base name. -/
def codeNameToks (n : String) : List (List Char) :=
  splitP (fun c => decide (c = '_')) (replaceList '.' '_' (asciiLower n).data)

/-- Heuristic tier: first non-hidden entry (enumeration order) such that
every one of the first two significant utterance tokens is a substring of
at least one token of the entry's name. -/
def heurTier (files : List String) (cmd : String) : Option String :=
  (snapshot files).find? (fun n =>
    ((cmdTokens cmd).take 2).all (fun w =>
      (codeNameToks n).any (fun tok => listSubstr w tok)))

/-- Embedding of `ShibuCore.find_local_command`: `none` when the directory
is missing, otherwise the exact tier and then the heuristic tier. -/
def findLocalCommand (dirExists : Bool) (files : List String) (cmd : String) : Option String :=
  if !dirExists then none
  else
    match exactTier files cmd with
    | some f => some f
    | none => heurTier files cmd

/-! ### `ShibuCore.query_local_llm` (Approximate Matcher)

The optional backend is `none` when no model is loaded (`self.llm` is
`None`), `some (Except.error e)` when the loaded model's call raises, and
`some (Except.ok out)` when it returns the decoded value `out`. The whole
Python function body sits in one `try/except` that returns `None`, so every
modelled exception path ends in `none`. -/

/-- Score of one file name: `sum(1 for t in toks if t in fname.lower())`. -/
def countSubs (toks : List (List Char)) (fname : String) : Nat :=
  (toks.filter (fun t => listSubstr t (asciiLower fname).data)).length

/-- One step of the code's running-maximum scan:
`if score > best_score: best_score, best_file = score, fname`. -/
def overlapStep (toks : List (List Char)) (acc : Nat × Option String) (fname : String) :
    Nat × Option String :=
  if acc.1 < countSubs toks fname then (countSubs toks fname, some fname) else acc

/-- The code's token-overlap selection: scan the candidates keeping the
first strict maximum, and return it only when the best score is positive. -/
def overlapPick (toks : List (List Char)) (avail : List String) : Option String :=
  let r := avail.foldl (overlapStep toks) (0, none)
  if 0 < r.1 then r.2 else none

/-- Candidate tokens of the model-output resolution:
`candidate.replace(".", " ").replace("_", " ").split()`, keeping words of
length > 2; note the candidate is not lower-cased here. -/
def candTokens (cand : String) : List (List Char) :=
  (pySplit (replaceList '_' ' ' (replaceList '.' ' ' cand.data))).filter
    (fun w => 2 < w.length)

/-- Message-path extraction `choices[0].get("message", {}).get("content", "")`;
`none` models the `AttributeError` raised when the `message` value is not a
dict. -/
def msgPath (c : Json) : Option Json :=
  match objGet c "message" (Json.obj JObj.nil) with
  | Json.obj fs => some (objGet (Json.obj fs) "content" (Json.str ""))
  | _ => none

/-- Extraction of the raw text value from the local model's response,
mirroring the duck-typed parse in `query_local_llm`; `none` models a raised
exception (caught by the enclosing `try`, which returns `None`). -/
def llmTextOf (out : Json) : Option Json :=
  match out with
  | Json.obj _ =>
    let choices := objGet out "choices" (jarr [])
    if truthy choices then
      match choices with
      | Json.arr (JArr.cons c _) =>
        (match c with
         | Json.obj _ =>
           (match objGetOpt c "text" with
            | some tv => if truthy tv then some tv else msgPath c
            | none => msgPath c)
         | _ => none)
      | _ => none
    else some (objGet out "text" (Json.str ""))
  | v => some (Json.str (pyStr v))

/-- Characters at which Python `str.splitlines` breaks a line. -/
def isLineBreak (c : Char) : Bool :=
  c.toNat = 10 || c.toNat = 13 || c.toNat = 11 || c.toNat = 12 ||
  c.toNat = 28 || c.toNat = 29 || c.toNat = 30 || c.toNat = 133 ||
  c.toNat = 8232 || c.toNat = 8233

/-- Candidate sanitization
`text.strip().splitlines()[0].strip().strip('"').strip("'")`; `none` models
the `IndexError` of `splitlines()[0]` on whitespace-only text. -/
def extractCandidate (text : String) : Option String :=
  let t := pyStrip text
  if t = "" then none
  else
    let line1 := String.mk (t.data.takeWhile (fun c => !isLineBreak c))
    some (pyStripChar '\'' (pyStripChar '"' (pyStrip line1)))

/-- Resolution of the sanitized model candidate against the available file
names: verbatim membership, then the first case-insensitive substring hit,
then the token-overlap scan. -/
def resolveCandidate (avail : List String) (cand : String) : Option String :=
  if avail.contains cand then some cand
  else
    match avail.find? (fun f => listSubstr (asciiLower cand).data (asciiLower f).data) with
    | some f => some f
    | none => overlapPick (candTokens cand) avail

/-- Embedding of `ShibuCore.query_local_llm`. The `llm` argument is the
loaded backend: absent, raising, or returning a decoded response value. -/
def queryLocalLlm (dirExists : Bool) (llm : Option (Except String Json))
    (files : List String) (cmd : String) : Option String :=
  let avail := if dirExists then snapshot files else []
  if avail.isEmpty then none
  else
    match llm with
    | none => overlapPick (cmdTokens cmd) avail
    | some (Except.error _) => none
    | some (Except.ok out) =>
      match llmTextOf out with
      | none => none
      | some tv =>
        if truthy tv then
          match tv with
          | Json.str s =>
            (match extractCandidate s with
             | none => none
             | some cand => resolveCandidate avail cand)
          | _ => none
        else none

/-! ### `ShibuCore.query_gemini` (Advisory Classifier)

The remote call is modelled by an `Except String Json`: `Except.error` when
`requests.post` or `response.json()` raises (unreachable host, timeout,
non-JSON body), `Except.ok r` when a decoded JSON value `r` comes back. The
whole function body beyond the key check sits in one `try/except` returning
`False`. -/

/-- Inner extraction attempt of
`candidates[0].get("content", {}).get("parts", [])[0].get("text", "")`:
`some v` is the extracted `text` value (or the serialized whole response
when `candidates` is missing or falsy), `none` models a raised exception,
after which the outer handler sets `text = str(result)`. -/
def innerExtract (r : Json) : Option Json :=
  match r with
  | Json.obj _ =>
    let cands := objGet r "candidates" (jarr [])
    if truthy cands then
      match cands with
      | Json.arr (JArr.cons c _) =>
        (match c with
         | Json.obj _ =>
           (match objGet c "content" (jobj []) with
            | Json.obj fs =>
              (match objGet (Json.obj fs) "parts" (jarr []) with
               | Json.arr (JArr.cons p _) =>
                 (match p with
                  | Json.obj _ => some (objGet p "text" (Json.str ""))
                  | _ => none)
               | _ => none)
            | _ => none)
         | _ => none)
      | _ => none
    else some (Json.str (dumps r))
  | _ => none

/-- The verdict text the token checks run on: the extracted value, or
`str(result)` when extraction raised. -/
def geminiTextVal (r : Json) : Json :=
  match innerExtract r with
  | some v => v
  | none => Json.str (pyStr r)

/-- The token checks of `query_gemini` on the verdict text, exactly in
source order: a text containing `"safe"` (or whose stripped form starts
with it) yields `True` first; only then is `"unsafe"` examined; then the
generic affirmative tokens; otherwise `False`. -/
def geminiVerdict (text : String) : Bool :=
  let tl := asciiLower text
  if listSubstr "safe".data tl.data || listStartsWith "safe".data (pyStrip tl).data then
    true
  else if listSubstr "unsafe".data tl.data || listStartsWith "unsafe".data (pyStrip tl).data then
    false
  else if ["yes", "ok", "doable", "feasible"].any (fun k => listSubstr k.data tl.data) then
    true
  else false

/-- Embedding of `ShibuCore.query_gemini`: fail closed without a key; fail
closed when the request raises; otherwise run the token checks on the
extracted text — a non-string extracted value raises at `text[:400]` or
`.lower()` and the outer handler returns `False`. -/
def queryGemini (apiKey : Option String) (resp : Except String Json) : Bool :=
  match apiKey with
  | none => false
  | some _ =>
    match resp with
    | Except.error _ => false
    | Except.ok r =>
      match geminiTextVal r with
      | Json.str s => geminiVerdict s
      | _ => false

/-- Predicate for the C8 analysis: the response is an object whose
`candidates` entry is missing or falsy, the branch in which the code
serializes the whole response with `json.dumps`. -/
def noCandidates (r : Json) : Bool :=
  match r with
  | Json.obj _ => !truthy (objGet r "candidates" (jarr []))
  | _ => false

/-! ### `ShibuCore.handle_command` (Resolution Orchestrator)

The embedding returns the terminal outcome together with the list of tiers
entered, in order, so that short-circuiting claims can talk about "no tier
was invoked". -/

/-- Terminal outcome of one resolution run. -/
inductive Outcome where
  | noop : Outcome
  | executed : String → Outcome
  | feasibleNoArtifact : Outcome
  | infeasible : Outcome
deriving DecidableEq, Repr

/-- The three tiers `handle_command` can enter. -/
inductive ResTier where
  | localMatch : ResTier
  | approxMatch : ResTier
  | advisory : ResTier
deriving DecidableEq, Repr

/-- Embedding of `ShibuCore.handle_command`. Python's `if not command:
return` fires exactly on the empty string. -/
def handleCommand (dirExists : Bool) (files : List String)
    (llm : Option (Except String Json)) (apiKey : Option String)
    (advResp : Except String Json) (cmd : String) : Outcome × List ResTier :=
  if cmd = "" then (Outcome.noop, [])
  else
    match findLocalCommand dirExists files cmd with
    | some f => (Outcome.executed f, [ResTier.localMatch])
    | none =>
      match queryLocalLlm dirExists llm files cmd with
      | some f => (Outcome.executed f, [ResTier.localMatch, ResTier.approxMatch])
      | none =>
        if queryGemini apiKey advResp then
          (Outcome.feasibleNoArtifact,
            [ResTier.localMatch, ResTier.approxMatch, ResTier.advisory])
        else
          (Outcome.infeasible,
            [ResTier.localMatch, ResTier.approxMatch, ResTier.advisory])

/-! ### Specification-side definitions

The definitions below transcribe the wording of the claims (not the code);
the refinement theorems compare them with the source embeddings above. -/

/-- Claim C3's utterance tokenization: "tokenizes the utterance into words
of length > 2, keeps at most the first two such tokens". -/
def sigTokens (cmd : String) : List (List Char) :=
  ((pySplit (asciiLower cmd).data).filter (fun w => 2 < w.length)).take 2

/-- Claim C3's name tokenization: "tokenizes each entry name by replacing
'.' and the separator with spaces", after which the tokens are the
whitespace-delimited words. Case handling follows the code (the claim is
silent on it): the name is compared lower-cased. -/
def specNameToks (n : String) : List (List Char) :=
  pySplit ((asciiLower n).data.map (fun c => if c = '.' || c = '_' then ' ' else c))

/-- Claim C3's heuristic tier: "returns the first entry in snapshot order
for which every selected utterance token is a substring of at least one
name token; if no entry qualifies it returns None". -/
def heuristicSpec (files : List String) (cmd : String) : Option String :=
  (snapshot files).find? (fun n =>
    (sigTokens cmd).all (fun w => (specNameToks n).any (fun tok => listSubstr w tok)))

/-- Claim C4's maximum score over the registry entries. -/
def bestScore (toks : List (List Char)) (avail : List String) : Nat :=
  avail.foldr (fun f m => max (countSubs toks f) m) 0

/-- Claim C4's token-overlap selection: "returns the entry with the
strictly highest score, breaking ties by first-seen order; it returns None
whenever the best score is zero". -/
def overlapSpecPick (toks : List (List Char)) (avail : List String) : Option String :=
  if bestScore toks avail = 0 then none
  else avail.find? (fun f => countSubs toks f = bestScore toks avail)

/-- Claim C6's first tier: "verbatim match against a known name". -/
def tierVerbatim (avail : List String) (cand : String) : Option String :=
  if avail.contains cand then some cand else none

/-- Claim C6's second tier: "case-insensitive substring match", first hit
in snapshot order. -/
def tierCiSubstr (avail : List String) (cand : String) : Option String :=
  avail.find? (fun f => listSubstr (asciiLower cand).data (asciiLower f).data)

/-- Claim C6's third tier: "token-overlap scoring on candidate tokens with
'.' and the separator treated as delimiters", with the selection rule of
the non-model fallback. -/
def tierOverlap (avail : List String) (cand : String) : Option String :=
  overlapSpecPick (candTokens cand) avail

/-- A pattern is glob-safe when it contains none of the `fnmatch`
metacharacters and no path separator (a separator would make `glob` descend
into subdirectories, which is outside this model). -/
def noMeta (l : List Char) : Bool :=
  l.all (fun c => !(c = '*' || c = '?' || c = '[' || c = '/'))

/-- Delimiter set of the code-side heuristic name tokenization after the
`'.' → '_'` replacement: it splits exactly at dots and underscores. -/
def isDotUnder (c : Char) : Bool :=
  c = '.' || c = '_'

/-- Delimiter set of the claim-side heuristic name tokenization: dots and
underscores become spaces, and the split on whitespace also breaks at any
pre-existing whitespace in the name. -/
def isDotUnderWs (c : Char) : Bool :=
  isDotUnder c || isPyWs c

/-! ## Generic list lemmas -/

theorem filter_head?_eq_find? {α : Type} (p : α → Bool) (l : List α) :
    (l.filter p).head? = l.find? p := by
  induction l with
  | nil => rfl
  | cons a t ih =>
    by_cases h : p a = true <;> simp [List.filter_cons, List.find?_cons, h, ih]

theorem find?_filter_and {α : Type} (h q : α → Bool) (l : List α) :
    (l.filter h).find? q = l.find? (fun a => h a && q a) := by
  induction l with
  | nil => rfl
  | cons a t ih =>
    by_cases ha : h a = true <;>
      by_cases hq : q a = true <;>
        simp [List.filter_cons, List.find?_cons, ha, hq, ih]

theorem find?_congr_mem {α : Type} {p q : α → Bool} {l : List α}
    (hpq : ∀ a ∈ l, p a = q a) : l.find? p = l.find? q := by
  induction l with
  | nil => rfl
  | cons a t ih =>
    have ha : p a = q a := hpq a (List.mem_cons_self a t)
    have iht : t.find? p = t.find? q := ih (fun b hb => hpq b (List.mem_cons_of_mem a hb))
    by_cases h : q a = true <;> simp [List.find?_cons, ha, h, iht]

theorem filter_congr_mem {α : Type} {p q : α → Bool} {l : List α}
    (hpq : ∀ a ∈ l, p a = q a) : l.filter p = l.filter q := by
  induction l with
  | nil => rfl
  | cons a t ih =>
    have ha : p a = q a := hpq a (List.mem_cons_self a t)
    have iht : t.filter p = t.filter q := ih (fun b hb => hpq b (List.mem_cons_of_mem a hb))
    by_cases h : q a = true <;> simp [List.filter_cons, ha, h, iht]

theorem any_congr_mem {α : Type} {p q : α → Bool} {l : List α}
    (hpq : ∀ a ∈ l, p a = q a) : l.any p = l.any q := by
  induction l with
  | nil => rfl
  | cons a t ih =>
    have ha : p a = q a := hpq a (List.mem_cons_self a t)
    have iht : t.any p = t.any q := ih (fun b hb => hpq b (List.mem_cons_of_mem a hb))
    simp [List.any_cons, ha, iht]

theorem all_congr_mem {α : Type} {p q : α → Bool} {l : List α}
    (hpq : ∀ a ∈ l, p a = q a) : l.all p = l.all q := by
  induction l with
  | nil => rfl
  | cons a t ih =>
    have ha : p a = q a := hpq a (List.mem_cons_self a t)
    have iht : t.all p = t.all q := ih (fun b hb => hpq b (List.mem_cons_of_mem a hb))
    simp [List.all_cons, ha, iht]

/-! ## Glob matching versus substring containment -/

theorem listSubstr_nil_right (w : List Char) :
    listSubstr w [] = listStartsWith w [] := by
  simp [listSubstr, List.tails]

theorem listSubstr_cons_right (w : List Char) (c : Char) (t : List Char) :
    listSubstr w (c :: t) = (listStartsWith w (c :: t) || listSubstr w t) := by
  simp [listSubstr, List.tails]

theorem tails_any_isEmpty (s : List Char) : (s.tails).any (fun t => t.isEmpty) = true := by
  induction s with
  | nil => rfl
  | cons c t ih => simp [List.tails, List.any_cons, ih]

theorem gmatch_lits_star (w s : List Char) :
    gmatch (w.map GTok.lit ++ [GTok.star]) s = listStartsWith w s := by
  induction w generalizing s with
  | nil =>
    simp only [List.map_nil, List.nil_append, listStartsWith]
    show gmatch [GTok.star] s = true
    simp only [gmatch]
    exact tails_any_isEmpty s
  | cons a w ih =>
    cases s with
    | nil => simp [gmatch, listStartsWith]
    | cons c t => simp [gmatch, listStartsWith, ih]

theorem gmatch_star_lits_star (w s : List Char) :
    gmatch (GTok.star :: (w.map GTok.lit ++ [GTok.star])) s = listSubstr w s := by
  simp only [gmatch, listSubstr]
  exact any_congr_mem (fun t _ => gmatch_lits_star w t)

theorem compileGlob_star_cons (p : List Char) :
    compileGlob ('*' :: p) = GTok.star :: compileGlob p := by
  simp [compileGlob, compileGlobF]

theorem compileGlob_lit_cons (c : Char) (p : List Char)
    (h1 : c ≠ '*') (h2 : c ≠ '?') (h3 : c ≠ '[') :
    compileGlob (c :: p) = GTok.lit c :: compileGlob p := by
  simp [compileGlob, compileGlobF, h1, h2, h3]

theorem compileGlob_noMeta (pat : List Char) (h : noMeta pat = true) :
    compileGlob (pat ++ ['*']) = pat.map GTok.lit ++ [GTok.star] := by
  induction pat with
  | nil => rfl
  | cons c p ih =>
    simp only [noMeta, List.all_cons, Bool.and_eq_true, Bool.not_eq_true',
      Bool.or_eq_false_iff, decide_eq_false_iff_not] at h
    obtain ⟨⟨⟨⟨h1, h2⟩, h3⟩, _⟩, hrest⟩ := h
    rw [List.cons_append, compileGlob_lit_cons c _ h1 h2 h3, ih hrest]
    simp

theorem string_data_append (a b : String) : (a ++ b).data = a.data ++ b.data := rfl

theorem globMatch_noMeta (pat : String) (h : noMeta pat.data = true) (n : String) :
    globMatch ("*" ++ pat ++ "*") n = listSubstr pat.data n.data := by
  have hdata : ("*" ++ pat ++ "*").data = '*' :: (pat.data ++ ['*']) := by
    rw [string_data_append, string_data_append]
    rfl
  rw [globMatch, hdata, compileGlob_star_cons, compileGlob_noMeta pat.data h,
    gmatch_star_lits_star]

/-! ## Splitting lemmas

These relate the two tokenizations of the heuristic tier: the code's
`fname.replace(".", "_").split("_")` and the claim's "replace `.` and `_`
with spaces and take the words". -/

theorem splitP_cons_pos (p : Char → Bool) (c : Char) (t : List Char) (h : p c = true) :
    splitP p (c :: t) = [] :: splitP p t := by
  simp [splitP, h]

theorem splitP_ne_nil (p : Char → Bool) (l : List Char) : splitP p l ≠ [] := by
  cases l with
  | nil => simp [splitP]
  | cons c t =>
    by_cases h : p c = true
    · simp [splitP, h]
    · simp only [splitP, h, if_false]
      cases hsp : splitP p t <;> simp

theorem splitP_cons_neg (p : Char → Bool) (c : Char) (t : List Char) (h : ¬p c = true)
    (h0 : List Char) (r0 : List (List Char)) (hsp : splitP p t = h0 :: r0) :
    splitP p (c :: t) = (c :: h0) :: r0 := by
  simp [splitP, h, hsp]

theorem splitP_congr (p q : Char → Bool) (h : ∀ c, p c = q c) (l : List Char) :
    splitP p l = splitP q l := by
  induction l with
  | nil => rfl
  | cons c t ih => simp only [splitP, h c, ih]

theorem splitP_map (q : Char → Bool) (f : Char → Char) (l : List Char) :
    splitP q (l.map f) = (splitP (fun c => q (f c)) l).map (List.map f) := by
  induction l with
  | nil => rfl
  | cons c t ih =>
    by_cases h : q (f c) = true
    · rw [List.map_cons, splitP_cons_pos q (f c) _ h,
        splitP_cons_pos (fun c => q (f c)) c t h, ih]
      rfl
    · cases hsp : splitP (fun c => q (f c)) t with
      | nil => exact absurd hsp (splitP_ne_nil _ t)
      | cons h0 r0 =>
        rw [hsp] at ih
        rw [List.map_cons,
          splitP_cons_neg q (f c) (List.map f t) h (List.map f h0)
            (List.map (List.map f) r0) (by simpa using ih),
          splitP_cons_neg (fun c => q (f c)) c t h h0 r0 hsp]
        rfl

theorem splitP_pieces_free (p : Char → Bool) (l : List Char) :
    ∀ w ∈ splitP p l, ∀ c ∈ w, p c = false := by
  induction l with
  | nil =>
    intro w hw c hc
    simp [splitP] at hw
    subst hw
    simp at hc
  | cons a t ih =>
    intro w hw c hc
    by_cases h : p a = true
    · rw [splitP_cons_pos _ _ _ h, List.mem_cons] at hw
      rcases hw with rfl | hw
      · simp at hc
      · exact ih w hw c hc
    · cases hsp : splitP p t with
      | nil => exact absurd hsp (splitP_ne_nil _ t)
      | cons h0 r0 =>
        rw [splitP_cons_neg _ _ _ h _ _ hsp, List.mem_cons] at hw
        rcases hw with rfl | hw
        · rcases List.mem_cons.mp hc with rfl | hc2
          · simpa using h
          · exact ih h0 (by rw [hsp]; exact List.mem_cons_self h0 r0) c hc2
        · exact ih w (by rw [hsp]; exact List.mem_cons_of_mem h0 hw) c hc

theorem splitP_union (p q : Char → Bool) (l : List Char) :
    splitP (fun c => p c || q c) l = (splitP p l).flatMap (splitP q) := by
  induction l with
  | nil => simp [splitP]
  | cons c t ih =>
    by_cases hp : p c = true
    · rw [splitP_cons_pos _ _ _ (by simp [hp]), splitP_cons_pos _ _ _ hp, ih]
      rfl
    · cases hsp : splitP p t with
      | nil => exact absurd hsp (splitP_ne_nil _ t)
      | cons h0 r0 =>
        rw [hsp, List.flatMap_cons] at ih
        cases hsq : splitP q h0 with
        | nil => exact absurd hsq (splitP_ne_nil _ h0)
        | cons hq0 rq0 =>
          rw [hsq] at ih
          by_cases hq : q c = true
          · rw [splitP_cons_pos _ _ _ (by simp [hq]),
              splitP_cons_neg _ _ _ hp _ _ hsp, List.flatMap_cons,
              splitP_cons_pos _ _ _ hq, hsq, ih]
            rfl
          · cases hs2 : splitP (fun c => p c || q c) t with
            | nil => exact absurd hs2 (splitP_ne_nil _ t)
            | cons h2 r2 =>
              rw [hs2] at ih
              rw [List.cons_append] at ih
              injection ih with hh hr
              rw [splitP_cons_neg (fun c => p c || q c) c t (by simp [hp, hq]) _ _ hs2,
                splitP_cons_neg _ _ _ hp _ _ hsp, List.flatMap_cons,
                splitP_cons_neg _ _ _ hq _ _ hsq, hh, hr]
              rfl

theorem startsWith_nil_of_ne (w : List Char) (hw : w ≠ []) :
    listStartsWith w [] = false := by
  cases w with
  | nil => exact absurd rfl hw
  | cons a w => rfl

theorem substr_nil_of_ne (w : List Char) (hw : w ≠ []) : listSubstr w [] = false := by
  rw [listSubstr_nil_right, startsWith_nil_of_ne w hw]

theorem startsWith_cons_ne (a : Char) (w : List Char) (c : Char) (t : List Char)
    (hne : a ≠ c) : listStartsWith (a :: w) (c :: t) = false := by
  simp [listStartsWith, hne]

theorem startsWith_append_qfree (q : Char → Bool) (rest : List Char)
    (hrest : rest = [] ∨ ∃ d r, rest = d :: r ∧ q d = true) :
    ∀ (h : List Char) (w : List Char), (∀ c ∈ w, q c = false) →
      listStartsWith w (h ++ rest) = listStartsWith w h := by
  intro h
  induction h with
  | nil =>
    intro w hfree
    cases w with
    | nil => simp [listStartsWith]
    | cons a w' =>
      rcases hrest with rfl | ⟨d, r, rfl, hd⟩
      · rfl
      · have ha : q a = false := hfree a (List.mem_cons_self a w')
        have hne : a ≠ d := by
          intro had
          rw [had, hd] at ha
          exact Bool.noConfusion ha
        rw [List.nil_append, startsWith_cons_ne a w' d r hne,
          startsWith_nil_of_ne _ (List.cons_ne_nil a w')]
  | cons x h' ih =>
    intro w hfree
    cases w with
    | nil => simp [listStartsWith]
    | cons a w' =>
      have hsub : ∀ c ∈ w', q c = false := fun c hc => hfree c (List.mem_cons_of_mem a hc)
      simp only [List.cons_append, listStartsWith]
      exact congrArg (fun b => decide (a = x) && b) (ih w' hsub)

theorem splitP_head_decomp (q : Char → Bool) (t : List Char) :
    ∀ (h0 : List Char) (r0 : List (List Char)), splitP q t = h0 :: r0 →
      ∃ rest, t = h0 ++ rest ∧ (rest = [] ∨ ∃ d r, rest = d :: r ∧ q d = true) := by
  induction t with
  | nil =>
    intro h0 r0 hsp
    simp only [splitP] at hsp
    injection hsp with h1 h2
    exact ⟨[], by simp [h1.symm], Or.inl rfl⟩
  | cons d t' ih =>
    intro h0 r0 hsp
    by_cases hqd : q d = true
    · rw [splitP_cons_pos _ _ _ hqd] at hsp
      injection hsp with h1 h2
      exact ⟨d :: t', by simp [h1.symm], Or.inr ⟨d, t', rfl, hqd⟩⟩
    · cases hsp' : splitP q t' with
      | nil => exact absurd hsp' (splitP_ne_nil _ t')
      | cons h1 r1 =>
        rw [splitP_cons_neg _ _ _ hqd _ _ hsp'] at hsp
        injection hsp with ha hb
        obtain ⟨rest, hrest, hprop⟩ := ih h1 r1 hsp'
        exact ⟨rest, by rw [ha.symm]; simp [hrest], hprop⟩

theorem any_splitP_substr (q : Char → Bool) (w : List Char) (hw : w ≠ [])
    (hfree : ∀ c ∈ w, q c = false) (s : List Char) :
    (splitP q s).any (fun piece => listSubstr w piece) = listSubstr w s := by
  induction s with
  | nil => simp [splitP]
  | cons c t ih =>
    by_cases hqc : q c = true
    · rw [splitP_cons_pos _ _ _ hqc, List.any_cons, substr_nil_of_ne w hw, ih,
        listSubstr_cons_right]
      cases w with
      | nil => exact absurd rfl hw
      | cons a w' =>
        have ha : q a = false := hfree a (List.mem_cons_self a w')
        have hne : a ≠ c := by
          intro hac
          rw [hac, hqc] at ha
          exact Bool.noConfusion ha
        rw [startsWith_cons_ne a w' c t hne]
    · cases hsp : splitP q t with
      | nil => exact absurd hsp (splitP_ne_nil _ t)
      | cons h0 r0 =>
        rw [hsp, List.any_cons] at ih
        obtain ⟨rest, hdec, hprop⟩ := splitP_head_decomp q t h0 r0 hsp
        have hsw : listStartsWith w (c :: t) = listStartsWith w (c :: h0) := by
          have := startsWith_append_qfree q rest hprop (c :: h0) w hfree
          rw [hdec]
          simpa using this
        rw [splitP_cons_neg _ _ _ hqc _ _ hsp, List.any_cons,
          listSubstr_cons_right w c h0, listSubstr_cons_right w c t, hsw, ← ih]
        simp [Bool.or_assoc]

theorem any_filter_nonempty (w : List Char) (hw : w ≠ []) (L : List (List Char)) :
    ((L.filter (fun t => !t.isEmpty)).any (fun tok => listSubstr w tok))
      = L.any (fun tok => listSubstr w tok) := by
  induction L with
  | nil => rfl
  | cons piece r ih =>
    cases piece with
    | nil => simp [List.filter_cons, List.any_cons, substr_nil_of_ne w hw, ih]
    | cons c t => simp [List.filter_cons, List.any_cons, ih]

theorem any_flatMap {α β : Type} (l : List α) (f : α → List β) (p : β → Bool) :
    (l.flatMap f).any p = l.any (fun a => (f a).any p) := by
  induction l with
  | nil => rfl
  | cons a t ih => simp [List.flatMap_cons, List.any_append, List.any_cons, ih]

/-! ## The two heuristic name tokenizations coincide -/

theorem map_pieces_id (p : Char → Bool) (f : Char → Char)
    (hf : ∀ c, p c = false → f c = c) (L : List (List Char))
    (hL : ∀ w ∈ L, ∀ c ∈ w, p c = false) : L.map (List.map f) = L := by
  induction L with
  | nil => rfl
  | cons w r ih =>
    have hw : List.map f w = w := by
      have : ∀ c ∈ w, f c = c := fun c hc => hf c (hL w (List.mem_cons_self w r) c hc)
      calc List.map f w = List.map id w := List.map_congr_left this
        _ = w := List.map_id w
    have hr : r.map (List.map f) = r := ih (fun v hv => hL v (List.mem_cons_of_mem w hv))
    rw [List.map_cons, hw, hr]

theorem codeNameToks_eq (n : String) :
    codeNameToks n = splitP isDotUnder (asciiLower n).data := by
  unfold codeNameToks replaceList
  rw [splitP_map]
  have hcongr : splitP (fun c => decide ((if c = '.' then '_' else c) = '_'))
      (asciiLower n).data = splitP isDotUnder (asciiLower n).data := by
    apply splitP_congr
    intro c
    by_cases h : c = '.' <;> simp [isDotUnder, h]
  rw [hcongr]
  exact map_pieces_id isDotUnder _
    (fun c hc => by
      simp only [isDotUnder, Bool.or_eq_false_iff, decide_eq_false_iff_not] at hc
      simp [hc.1])
    _ (splitP_pieces_free isDotUnder (asciiLower n).data)

theorem specNameToks_eq (n : String) :
    specNameToks n
      = (splitP isDotUnderWs (asciiLower n).data).filter (fun w => !w.isEmpty) := by
  unfold specNameToks pySplit
  rw [splitP_map]
  have hcongr : splitP (fun c => isPyWs (if c = '.' || c = '_' then ' ' else c))
      (asciiLower n).data = splitP isDotUnderWs (asciiLower n).data := by
    apply splitP_congr
    intro c
    by_cases h : (c = '.' || c = '_') = true
    · simp only [h, if_true]
      simp only [isDotUnderWs, isDotUnder, h, Bool.true_or]
      rfl
    · simp only [h, if_false]
      simp [isDotUnderWs, isDotUnder, h]
  rw [hcongr]
  rw [map_pieces_id isDotUnderWs _
    (fun c hc => by
      simp only [isDotUnderWs, isDotUnder, Bool.or_eq_false_iff,
        decide_eq_false_iff_not] at hc
      simp [hc.1.1, hc.1.2])
    _ (splitP_pieces_free isDotUnderWs (asciiLower n).data)]

theorem nameToks_any_eq (w : List Char) (hw : w ≠ [])
    (hfree : ∀ c ∈ w, isPyWs c = false) (n : String) :
    (codeNameToks n).any (fun tok => listSubstr w tok)
      = (specNameToks n).any (fun tok => listSubstr w tok) := by
  rw [codeNameToks_eq, specNameToks_eq, any_filter_nonempty w hw]
  have hunion : splitP isDotUnderWs (asciiLower n).data
      = (splitP isDotUnder (asciiLower n).data).flatMap (splitP isPyWs) := by
    have := splitP_union isDotUnder isPyWs (asciiLower n).data
    rw [← this]
    exact splitP_congr _ _ (fun c => rfl) _
  rw [hunion, any_flatMap]
  apply any_congr_mem
  intro piece _
  exact (any_splitP_substr isPyWs w hw hfree piece).symm

theorem pySplit_words (l : List Char) :
    ∀ w ∈ pySplit l, w ≠ [] ∧ ∀ c ∈ w, isPyWs c = false := by
  intro w hw
  unfold pySplit at hw
  refine ⟨?_, ?_⟩
  · have := List.of_mem_filter hw
    simpa using this
  · exact splitP_pieces_free isPyWs l w (List.mem_of_mem_filter hw)

theorem sigTokens_words (cmd : String) :
    ∀ w ∈ sigTokens cmd, w ≠ [] ∧ ∀ c ∈ w, isPyWs c = false := by
  intro w hw
  unfold sigTokens at hw
  have h1 := List.take_subset 2 _ hw
  exact pySplit_words _ w (List.mem_of_mem_filter h1)

theorem heurTier_eq_spec (files : List String) (cmd : String) :
    heurTier files cmd = heuristicSpec files cmd := by
  unfold heurTier heuristicSpec
  apply find?_congr_mem
  intro n _
  apply all_congr_mem
  intro w hw
  obtain ⟨hne, hfree⟩ := sigTokens_words cmd w hw
  exact nameToks_any_eq w hne hfree n

/-! ## The running-maximum scan equals the argmax description -/

theorem overlapStep_eq (toks : List (List Char)) (b : Nat) (of : Option String)
    (f : String) :
    overlapStep toks (b, of) f
      = if b < countSubs toks f then (countSubs toks f, some f) else (b, of) := rfl

theorem bestScore_cons (toks : List (List Char)) (f : String) (r : List String) :
    bestScore toks (f :: r) = max (countSubs toks f) (bestScore toks r) := rfl

theorem overlap_fold (toks : List (List Char)) (avail : List String) :
    ∀ (b : Nat) (of : Option String),
      avail.foldl (overlapStep toks) (b, of)
        = (max b (bestScore toks avail),
           if b < bestScore toks avail
           then avail.find? (fun f => countSubs toks f = bestScore toks avail)
           else of) := by
  induction avail with
  | nil =>
    intro b of
    simp [bestScore]
  | cons f r ih =>
    intro b of
    rw [List.foldl_cons, overlapStep_eq, bestScore_cons]
    by_cases hbf : b < countSubs toks f
    · rw [if_pos hbf, ih]
      by_cases hsr : countSubs toks f < bestScore toks r
      · have h1 : max (countSubs toks f) (bestScore toks r) = bestScore toks r := by
          omega
        have h2 : max b (bestScore toks r) = bestScore toks r := by omega
        rw [h1, if_pos hsr, h2, if_pos (by omega : b < bestScore toks r),
          List.find?_cons_of_neg _ (by simp only [decide_eq_true_eq]; omega)]
      · have h1 : max (countSubs toks f) (bestScore toks r) = countSubs toks f := by
          omega
        have h2 : max b (countSubs toks f) = countSubs toks f := by omega
        rw [if_neg hsr, h1, h2, if_pos hbf,
          List.find?_cons_of_pos _ (by simp [h1])]
    · rw [if_neg hbf, ih]
      have hsb : countSubs toks f ≤ b := by omega
      by_cases hbr : b < bestScore toks r
      · have h1 : max (countSubs toks f) (bestScore toks r) = bestScore toks r := by
          omega
        have h2 : max b (bestScore toks r) = bestScore toks r := by omega
        rw [if_pos hbr, h1, h2, if_pos hbr,
          List.find?_cons_of_neg _ (by simp only [decide_eq_true_eq]; omega)]
      · have h1 : max b (max (countSubs toks f) (bestScore toks r)) = max b (bestScore toks r) := by
          omega
        rw [if_neg hbr, h1, if_neg (by omega : ¬ b < max (countSubs toks f) (bestScore toks r))]

theorem overlapPick_eq_spec (toks : List (List Char)) (avail : List String) :
    overlapPick toks avail = overlapSpecPick toks avail := by
  unfold overlapPick overlapSpecPick
  rw [overlap_fold toks avail 0 none]
  by_cases h : bestScore toks avail = 0
  · simp [h]
  · have hpos : 0 < bestScore toks avail := Nat.pos_of_ne_zero h
    simp [h, hpos]

/-! ## Remaining characterization lemmas -/

theorem filter_and_split {α : Type} (p q : α → Bool) (l : List α) :
    l.filter (fun a => p a && q a) = (l.filter p).filter q := by
  induction l with
  | nil => rfl
  | cons a t ih =>
    by_cases hp : p a = true <;> by_cases hq : q a = true <;>
      simp [List.filter_cons, hp, hq, ih]

theorem exactTier_eq_find? (files : List String) (cmd : String)
    (h : noMeta (patternOf cmd).data = true) :
    exactTier files cmd = (snapshot files).find? (fun n => pyIn (patternOf cmd) n) := by
  unfold exactTier
  have hfc : files.filter
        (fun n => !strHidden n && globMatch ("*" ++ patternOf cmd ++ "*") n)
      = files.filter (fun n => !strHidden n && pyIn (patternOf cmd) n) :=
    filter_congr_mem (fun n _ => by rw [globMatch_noMeta _ h n]; rfl)
  rw [hfc, filter_and_split (fun n => !strHidden n) (fun n => pyIn (patternOf cmd) n),
    filter_head?_eq_find?]
  rfl

theorem find?_const_true {α : Type} (l : List α) :
    l.find? (fun _ => true) = l.head? := by
  cases l with
  | nil => rfl
  | cons a t => simp [List.find?_cons]

theorem resolveCandidate_eq_tiers (avail : List String) (cand : String) :
    resolveCandidate avail cand
      = (match tierVerbatim avail cand with
         | some f => some f
         | none =>
           match tierCiSubstr avail cand with
           | some f => some f
           | none => tierOverlap avail cand) := by
  unfold resolveCandidate tierVerbatim tierCiSubstr tierOverlap
  by_cases hc : cand ∈ avail
  · simp [hc]
  · cases hf : avail.find?
        (fun f => listSubstr (asciiLower cand).data (asciiLower f).data) with
    | some f => simp [hc, hf]
    | none => simp [hc, hf, overlapPick_eq_spec]

/-! ## Claim theorems -/

/-- C1: the claim says the negative token check outranks the positive one,
so any verdict text containing "unsafe" must yield `safe = false`. The code
checks `"safe" in text_lower` first, and `"unsafe"` contains `"safe"`, so
the very response the prompt requests for a dangerous command ("UNSAFE, this
could damage the device") makes `query_gemini` return `True` — contradicting
the function's own docstring ("Returns True if Gemini indicates
'safe/yes'"), its prompt contract, and the claim. This theorem evaluates the
embedded code at that failing input, both on the raw verdict text and
through the full response-extraction path. -/
theorem c1_unsafe_reply_returns_true :
    pyIn "unsafe" (asciiLower "UNSAFE, this could damage the device") = true ∧
    geminiVerdict "UNSAFE, this could damage the device" = true ∧
    queryGemini (some "key")
        (Except.ok (jobj [("candidates",
          jarr [jobj [("content",
            jobj [("parts",
              jarr [jobj [("text",
                Json.str "UNSAFE, this could damage the device")]])])]])]))
      = true :=
  ⟨rfl, rfl, rfl⟩

/-- C2 counterexample: the claim quantifies over utterances whose
normalized pattern — "trimmed, lower-cased, whitespace runs replaced by the
separator" — is a substring of an entry name under case-folded comparison,
and asserts the Exact tier returns a match. Both parts fail on the code:
`glob` on POSIX is case-sensitive while the pattern is lower-cased, so
utterance "celebrate" finds nothing in a registry holding "Celebrate.py"
even though the case-folded pattern is a substring of the case-folded name;
and `.replace(" ", "_")` rewrites each space separately, so "move  forward"
(two spaces) yields pattern "move__forward" and misses "move_forward.sh"
even though the run-collapsed pattern "move_forward" is a substring. -/
theorem c2_exact_tier_counterexample :
    exactTier ["Celebrate.py"] "celebrate" = none ∧
    pyIn (patternOf "celebrate") (asciiLower "Celebrate.py") = true ∧
    exactTier ["move_forward.sh"] "move  forward" = none ∧
    pyIn "move_forward" "move_forward.sh" = true :=
  ⟨rfl, rfl, rfl, rfl⟩

/-- C2 (amended): with the pattern as the code builds it — utterance
stripped, lower-cased, each space character replaced by an underscore — and
under case-sensitive comparison, every utterance whose pattern contains no
glob metacharacter and is a substring of some non-hidden entry's name makes
the Exact tier return the first such entry in snapshot order. -/
theorem c2_exact_tier_first_match (files : List String) (cmd e : String)
    (h1 : noMeta (patternOf cmd).data = true)
    (h2 : (snapshot files).find? (fun n => pyIn (patternOf cmd) n) = some e) :
    exactTier files cmd = some e := by
  rw [exactTier_eq_find? files cmd h1, h2]

/-- C2 witness: utterance "forward" against a registry
`["move_forward.sh", "celebrate.py"]` satisfies the amended hypotheses and
the Exact tier indeed returns `move_forward.sh`. -/
theorem c2_exact_tier_witness :
    exactTier ["move_forward.sh", "celebrate.py"] "forward" = some "move_forward.sh" :=
  c2_exact_tier_first_match ["move_forward.sh", "celebrate.py"] "forward"
    "move_forward.sh" (by decide) (by decide)

/-- C3: when the exact tier is empty, `find_local_command` returns exactly
what the claim's description of the heuristic tier computes: tokenize the
utterance into words of length > 2, keep the first two, tokenize each
non-hidden entry name by turning `.` and `_` into spaces, and return the
first entry (snapshot order) whose token list covers every selected
utterance token — `none` when no entry qualifies. -/
theorem c3_heuristic_tier_eq_spec (files : List String) (cmd : String)
    (h : exactTier files cmd = none) :
    findLocalCommand true files cmd = heuristicSpec files cmd := by
  simp only [findLocalCommand, Bool.not_true, Bool.false_eq_true, if_false, h]
  exact heurTier_eq_spec files cmd

/-- C3 witness: the specification's own scenario — registry
`["move_forward.sh", "celebrate.py"]`, utterance "move forward please" —
has an empty exact tier, and both the code and the claim-side description
pick `move_forward.sh`. -/
theorem c3_heuristic_tier_witness :
    findLocalCommand true ["move_forward.sh", "celebrate.py"] "move forward please"
      = heuristicSpec ["move_forward.sh", "celebrate.py"] "move forward please" ∧
    findLocalCommand true ["move_forward.sh", "celebrate.py"] "move forward please"
      = some "move_forward.sh" :=
  ⟨c3_heuristic_tier_eq_spec ["move_forward.sh", "celebrate.py"]
      "move forward please" (by decide),
    by decide⟩

/-- C4: with no model backend loaded, the Approximate Matcher equals the
claim's argmax description: score each non-hidden entry by the number of
significant utterance tokens that are substrings of the lower-cased name,
return the first entry attaining the maximum score, and `none` whenever the
best score is zero (in particular whenever no entry scores positively). -/
theorem c4_token_overlap_argmax (files : List String) (cmd : String) :
    queryLocalLlm true none files cmd
      = overlapSpecPick (cmdTokens cmd) (snapshot files) := by
  unfold queryLocalLlm
  by_cases h : (snapshot files).isEmpty
  · have hnil : snapshot files = [] := by simpa using h
    simp [hnil, overlapSpecPick, bestScore]
  · simp only [if_true, h, Bool.false_eq_true, if_false]
    exact overlapPick_eq_spec (cmdTokens cmd) (snapshot files)

/-- C5 counterexample: the claim says a throwing backend call degrades to
the token-overlap fallback's result for the utterance. For registry
`["celebrate.py"]` and utterance "celebrate" the fallback (run when no
backend is configured) returns `celebrate.py`, but with a configured,
throwing backend the matcher returns `none`: the `except` clause returns
`None` without ever running the fallback. -/
theorem c5_error_skips_fallback_counterexample :
    queryLocalLlm true (some (Except.error "boom")) ["celebrate.py"] "celebrate" = none ∧
    queryLocalLlm true none ["celebrate.py"] "celebrate" = some "celebrate.py" :=
  ⟨rfl, rfl⟩

/-- C5 (amended): when the model backend is configured and its call throws,
the Approximate Matcher catches the error and returns `none` — it neither
propagates the error nor runs the token-overlap fallback (the fallback runs
only when no backend is loaded); resolution then proceeds to the Advisory
Classifier. -/
theorem c5_backend_error_returns_none (dirExists : Bool) (files : List String)
    (cmd e : String) :
    queryLocalLlm dirExists (some (Except.error e)) files cmd = none := by
  unfold queryLocalLlm
  by_cases h : (if dirExists then snapshot files else []).isEmpty = true <;> simp [h]

/-- C6: in model-backed mode, once the response text extraction succeeds
and yields a sanitized first-line candidate, the matcher's result is the
three-tier fallback the claim describes, in order: verbatim name match,
case-insensitive substring match, token-overlap scoring on the candidate's
tokens with `.` and `_` as extra delimiters — `none` when all three tiers
find nothing. -/
theorem c6_model_resolution_tiers (files : List String) (cmd : String) (out : Json)
    (text cand : String) (h1 : llmTextOf out = some (Json.str text))
    (h2 : text ≠ "") (h3 : extractCandidate text = some cand) :
    queryLocalLlm true (some (Except.ok out)) files cmd
      = (match tierVerbatim (snapshot files) cand with
         | some f => some f
         | none =>
           match tierCiSubstr (snapshot files) cand with
           | some f => some f
           | none => tierOverlap (snapshot files) cand) := by
  unfold queryLocalLlm
  by_cases h : (snapshot files).isEmpty
  · have hnil : snapshot files = [] := by simpa using h
    simp [hnil, tierVerbatim, tierCiSubstr, tierOverlap, overlapSpecPick, bestScore]
  · simp only [if_true, h, Bool.false_eq_true, if_false, h1, h3]
    have ht : truthy (Json.str text) = true := by simpa [truthy] using h2
    simp only [ht, if_true]
    exact resolveCandidate_eq_tiers (snapshot files) cand

/-- C6 witness: the specification's model-backed scenario — the backend
answers `{"choices": [{"text": "  \"celebrate.py\"\n"}]}` and the registry
holds `celebrate.py` — satisfies the extraction hypotheses, and the matcher
resolves the candidate through the tiers to `celebrate.py` (here via the
verbatim tier). -/
theorem c6_model_resolution_witness :
    queryLocalLlm true
        (some (Except.ok (jobj [("choices",
          jarr [jobj [("text", Json.str "  \"celebrate.py\"\n")]])])))
        ["celebrate.py"] "party"
      = (match tierVerbatim (snapshot ["celebrate.py"]) "celebrate.py" with
         | some f => some f
         | none =>
           match tierCiSubstr (snapshot ["celebrate.py"]) "celebrate.py" with
           | some f => some f
           | none => tierOverlap (snapshot ["celebrate.py"]) "celebrate.py") ∧
    queryLocalLlm true
        (some (Except.ok (jobj [("choices",
          jarr [jobj [("text", Json.str "  \"celebrate.py\"\n")]])])))
        ["celebrate.py"] "party"
      = some "celebrate.py" :=
  ⟨c6_model_resolution_tiers ["celebrate.py"] "party" _ "  \"celebrate.py\"\n"
      "celebrate.py" rfl (by decide) rfl,
    by decide⟩

/-- C7: the Advisory Classifier is fail-closed on missing configuration:
with no API key, `query_gemini` returns `false` for every possible remote
behaviour — the verdict does not depend on the response at all, so no
request is consulted. -/
theorem c7_no_key_fail_closed (resp : Except String Json) :
    queryGemini none resp = false := rfl

/-- C8 counterexample: the claim says a response without the nested
`candidates[0].content.parts[0].text` field is treated as empty text and
classified `safe = false`. In the code the `candidates`-missing branch sets
the verdict text to `json.dumps(result)` — the serialized response, not the
empty string — and the serialization of `{"status": "failsafe"}` contains
"safe", so the classifier returns `true`. -/
theorem c8_missing_field_counterexample :
    noCandidates (jobj [("status", Json.str "failsafe")]) = true ∧
    queryGemini (some "key") (Except.ok (jobj [("status", Json.str "failsafe")]))
      = true :=
  ⟨rfl, rfl⟩

/-- C8 (amended): when the expected nested field is absent the classifier
does not treat the text as empty; it falls back to the serialized response
— `json.dumps(result)` when `candidates` is missing or falsy,
`str(result)` when extraction throws — and applies the usual token checks
to that serialization (so it returns `false` exactly when the serialization
passes none of them). -/
theorem c8_extraction_serialization_fallback (key : String) (r : Json) :
    (noCandidates r = true →
      queryGemini (some key) (Except.ok r) = geminiVerdict (dumps r)) ∧
    (innerExtract r = none →
      queryGemini (some key) (Except.ok r) = geminiVerdict (pyStr r)) := by
  constructor
  · intro h
    cases r with
    | obj fs =>
      have ht : truthy (objGet (Json.obj fs) "candidates" (jarr [])) = false := by
        simpa [noCandidates] using h
      simp [queryGemini, geminiTextVal, innerExtract, ht]
    | null => simp [noCandidates] at h
    | bool b => simp [noCandidates] at h
    | num n => simp [noCandidates] at h
    | str s => simp [noCandidates] at h
    | arr xs => simp [noCandidates] at h
  · intro h
    simp [queryGemini, geminiTextVal, h]

/-- C8 witness: the absent-field response `{"status": "failsafe"}` is
classified exactly as the token checks applied to its `json.dumps`
serialization. -/
theorem c8_extraction_fallback_witness :
    queryGemini (some "key") (Except.ok (jobj [("status", Json.str "failsafe")]))
      = geminiVerdict (dumps (jobj [("status", Json.str "failsafe")])) :=
  (c8_extraction_serialization_fallback "key"
    (jobj [("status", Json.str "failsafe")])).1 (by decide)

/-- C9 counterexample: the claim says every whitespace-only utterance
short-circuits to a no-op with no tier entered. Python's `if not command`
is false for `" "`, so the pipeline runs; the stripped pattern is empty,
the glob pattern degenerates to `**`, and the Exact tier matches — and the
orchestrator executes — the first non-hidden registry file. -/
theorem c9_whitespace_not_short_circuited :
    handleCommand true ["celebrate.py"] none none (Except.error "") " "
      = (Outcome.executed "celebrate.py", [ResTier.localMatch]) :=
  rfl

/-- C9 (amended): only the empty utterance short-circuits: for every
configuration, `handle_command ""` is a no-op entering no tier. A
whitespace-only utterance instead enters the pipeline (see the
counterexample, where it executes the first registry file). -/
theorem c9_empty_short_circuits (dirExists : Bool) (files : List String)
    (llm : Option (Except String Json)) (apiKey : Option String)
    (advResp : Except String Json) :
    handleCommand dirExists files llm apiKey advResp "" = (Outcome.noop, []) :=
  rfl

/-- C10: implicit edge case — when the registry is non-empty, the exact
tier is empty and every utterance word has length at most 2, the selected
significant-token list is empty, the heuristic tier's universal condition
is vacuously true for every entry, and the matcher returns the first
non-hidden file in snapshot order. -/
theorem c10_short_words_return_first_file (files : List String) (cmd : String)
    (h1 : exactTier files cmd = none)
    (h2 : (pySplit (asciiLower cmd).data).all (fun w => w.length ≤ 2) = true)
    (_h3 : snapshot files ≠ []) :
    findLocalCommand true files cmd = (snapshot files).head? := by
  have htoks : cmdTokens cmd = [] := by
    unfold cmdTokens
    rw [List.filter_eq_nil_iff]
    intro w hw
    have := List.all_eq_true.mp h2 w hw
    simp only [decide_eq_true_eq] at this ⊢
    omega
  simp only [findLocalCommand, Bool.not_true, Bool.false_eq_true, if_false, h1,
    heurTier, htoks, List.take_nil, List.all_nil]
  exact find?_const_true (snapshot files)

/-- C10 witness: registry `["move_forward.sh"]` and utterance "go up" (all
words of length ≤ 2, no exact match) make the matcher return the first —
and entirely unrelated — file. -/
theorem c10_short_words_witness :
    findLocalCommand true ["move_forward.sh"] "go up"
      = (snapshot ["move_forward.sh"]).head? ∧
    findLocalCommand true ["move_forward.sh"] "go up" = some "move_forward.sh" :=
  ⟨c10_short_words_return_first_file ["move_forward.sh"] "go up" (by decide)
      (by decide) (by decide),
    by decide⟩

end Shibu
